import Mathlib

/-!
Verification of the projective geometry / Jacobian engine of DPVO
(`dpvo/projective_ops.py`) against its specification.

The tensor code is embedded shallowly: batched tensors become functions
from indices to scalar records, machine floats become exact rationals
(so floating-point tolerances hold exactly), and each function of
`projective_ops.py` becomes a Lean definition of the same name
(`iproj`, `proj`, `proj_disps`, `transform`, `flow_mag`,
`projective_transform`, ...), with the per-edge / per-pixel value as the
unit of translation.

The Lie-group library `lietorch` (SE3: quaternion + translation) is an
external collaborator of this core and its sources are not part of the
verified tree; its operations (`*`, `inv`, group action on homogeneous
points, `adjT`, `matrix`) are modelled from the specification's
Lie-group pose-adapter contract.
-/

namespace DPVO

/-- A 3-vector of rationals. -/
structure V3 where
  x : ℚ
  y : ℚ
  z : ℚ
deriving DecidableEq

/-- A homogeneous point (X, Y, Z, W); W carries the inverse-depth scale. -/
structure V4 where
  x : ℚ
  y : ℚ
  z : ℚ
  w : ℚ
deriving DecidableEq

/-- A quaternion in lietorch layout (qx, qy, qz, qw). -/
structure Quat where
  x : ℚ
  y : ℚ
  z : ℚ
  w : ℚ
deriving DecidableEq

/-- Modelled from the spec: a pose, stored as a minimal parameterization
(unit quaternion + translation), as the lietorch SE3 data layout
`[tx, ty, tz, qx, qy, qz, qw]`. The lietorch implementation is not part
of the verified sources. -/
structure SE3 where
  t : V3
  q : Quat
deriving DecidableEq

/-- Camera intrinsics {fx, fy, cx, cy} of one frame. -/
structure K4 where
  fx : ℚ
  fy : ℚ
  cx : ℚ
  cy : ℚ
deriving DecidableEq

/-- A 2D pixel coordinate. -/
structure Pix where
  x : ℚ
  y : ℚ
deriving DecidableEq

/-- One pixel of a patch: the (x, y) channels and the depth channel d. -/
structure PatchPt where
  px : ℚ
  py : ℚ
  d : ℚ
deriving DecidableEq

/-- The identity quaternion (0, 0, 0, 1). -/
def qId : Quat := ⟨0, 0, 0, 1⟩

/-- Quaternion Hamilton product, (x, y, z, w) layout. -/
def qmul (a b : Quat) : Quat :=
  ⟨a.w * b.x + a.x * b.w + a.y * b.z - a.z * b.y,
   a.w * b.y - a.x * b.z + a.y * b.w + a.z * b.x,
   a.w * b.z + a.x * b.y - a.y * b.x + a.z * b.w,
   a.w * b.w - a.x * b.x - a.y * b.y - a.z * b.z⟩

/-- Quaternion conjugate; the inverse of a unit quaternion. -/
def qconj (a : Quat) : Quat := ⟨-a.x, -a.y, -a.z, a.w⟩

/-- Cross product of 3-vectors. -/
def cross (u v : V3) : V3 :=
  ⟨u.y * v.z - u.z * v.y, u.z * v.x - u.x * v.z, u.x * v.y - u.y * v.x⟩

/-- Vector addition. -/
def v3add (u v : V3) : V3 := ⟨u.x + v.x, u.y + v.y, u.z + v.z⟩

/-- Scalar multiple. -/
def v3smul (a : ℚ) (v : V3) : V3 := ⟨a * v.x, a * v.y, a * v.z⟩

/-- Vector negation. -/
def v3neg (v : V3) : V3 := ⟨-v.x, -v.y, -v.z⟩

/-- Modelled from the spec: rotation of a vector by a unit quaternion,
`v + 2 w (u × v) + 2 (u × (u × v))` with `u = (qx, qy, qz)`. -/
def qrot (q : Quat) (v : V3) : V3 :=
  let u : V3 := ⟨q.x, q.y, q.z⟩
  v3add v (v3add (v3smul (2 * q.w) (cross u v)) (v3smul 2 (cross u (cross u v))))

/-- The identity pose. -/
def se3Id : SE3 := ⟨⟨0, 0, 0⟩, qId⟩

/-- Modelled from the spec: pose inversion, `inverse(A) -> A⁻¹`. -/
def se3Inv (g : SE3) : SE3 := ⟨v3neg (qrot (qconj g.q) g.t), qconj g.q⟩

/-- Modelled from the spec: pose composition, `compose(A, B) -> A·B`. -/
def se3Mul (a b : SE3) : SE3 := ⟨v3add a.t (qrot a.q b.t), qmul a.q b.q⟩

/-- Modelled from the spec: group action on a homogeneous point,
`act(A, (X,Y,Z,W)) = (R·(X,Y,Z) + W·t, W)` — W encodes the inverse-depth
scale, so translation enters scaled by W. -/
def se3Act (g : SE3) (p : V4) : V4 :=
  let r := v3add (qrot g.q ⟨p.x, p.y, p.z⟩) (v3smul p.w g.t)
  ⟨r.x, r.y, r.z, p.w⟩

/-- `Gij[...,3:] = [0,0,0,1]` of the source: zero the rotational component
of a pose (data components 3..6 are the quaternion), keeping translation. -/
def se3TOnly (g : SE3) : SE3 := ⟨g.t, qId⟩

/-- Standard basis of ℚ³. -/
def v3basis : Fin 3 → V3 := ![⟨1, 0, 0⟩, ⟨0, 1, 0⟩, ⟨0, 0, 1⟩]

/-- Components of a 3-vector, indexed. -/
def v3get (v : V3) : Fin 3 → ℚ := ![v.x, v.y, v.z]

/-- The rotation matrix of a pose's quaternion: column j is the rotated
j-th basis vector, so it agrees with `qrot` by construction. -/
def rotMat (q : Quat) : Matrix (Fin 3) (Fin 3) ℚ :=
  Matrix.of fun i j => v3get (qrot q (v3basis j)) i

/-- Skew-symmetric (cross-product) matrix of a vector. -/
def skew (t : V3) : Matrix (Fin 3) (Fin 3) ℚ :=
  !![0, -t.z, t.y; t.z, 0, -t.x; -t.y, t.x, 0]

/-- Modelled from the spec: the 4×4 homogeneous matrix `[[R, t], [0, 1]]`
of a pose (lietorch `matrix()`). -/
def se3Matrix (g : SE3) : Matrix (Fin 4) (Fin 4) ℚ :=
  let R := rotMat g.q
  !![R 0 0, R 0 1, R 0 2, g.t.x;
     R 1 0, R 1 1, R 1 2, g.t.y;
     R 2 0, R 2 1, R 2 2, g.t.z;
     0, 0, 0, 1]

/-- Modelled from the spec: the SE3 adjoint matrix in the tangent ordering
(translation, rotation) used by the action Jacobian:
`Adj = [[R, skew(t)·R], [0, R]]`. -/
def se3Adj (g : SE3) : Matrix (Fin 6) (Fin 6) ℚ :=
  let R := rotMat g.q
  let TR := skew g.t * R
  !![R 0 0, R 0 1, R 0 2, TR 0 0, TR 0 1, TR 0 2;
     R 1 0, R 1 1, R 1 2, TR 1 0, TR 1 1, TR 1 2;
     R 2 0, R 2 1, R 2 2, TR 2 0, TR 2 1, TR 2 2;
     0, 0, 0, R 0 0, R 0 1, R 0 2;
     0, 0, 0, R 1 0, R 1 1, R 1 2;
     0, 0, 0, R 2 0, R 2 1, R 2 2]

/-- Modelled from the spec: `adjoint_transpose(A, J) -> J'`, lietorch
`adjT`, applied row-wise to a 2×6 Jacobian: each row r (a tangent
covector) becomes `Adj(A)ᵀ · J(r)`, i.e. `J · Adj(A)` as a matrix. -/
def se3AdjT (g : SE3) (J : Matrix (Fin 2) (Fin 6) ℚ) : Matrix (Fin 2) (Fin 6) ℚ :=
  J * se3Adj g

/-- `MIN_DEPTH = 0.2` of the source. -/
def MIN_DEPTH : ℚ := 1/5

/-- `iproj` of the source, per patch pixel: inverse projection
`(x, y, d) ↦ ((x - cx)/fx, (y - cy)/fy, 1, d)`. -/
def iproj (p : PatchPt) (K : K4) : V4 :=
  ⟨(p.px - K.cx) / K.fx, (p.py - K.cy) / K.fy, 1, p.d⟩

/-- The inverse-depth term of `proj`: `d = 1.0 / Z.clamp(min=0.1)`. -/
def projD (Z : ℚ) : ℚ := 1 / max Z (1/10)

/-- `proj` of the source, per point: `x = fx·(d·X) + cx, y = fy·(d·Y) + cy`
with `d = 1 / clamp(Z, min=0.1)`. -/
def proj (X : V4) (K : K4) : Pix :=
  ⟨K.fx * (projD X.z * X.x) + K.cx, K.fy * (projD X.z * X.y) + K.cy⟩

/-- The substituted Z of `proj_disps`:
`Z = where(Z < 0.5·MIN_DEPTH, 1, Z)`. -/
def projDispsZ (Z : ℚ) : ℚ := if Z < (1/2) * MIN_DEPTH then 1 else Z

/-- `proj_disps` of the source, per point (pixel part): the same pinhole
formula but with Z below half of MIN_DEPTH substituted by 1 before the
inversion `d = 1/Z`. -/
def proj_disps (X : V4) (K : K4) : Pix :=
  let d := 1 / projDispsZ X.z
  ⟨K.fx * (X.x * d) + K.cx, K.fy * (X.y * d) + K.cy⟩

/-- `iproj_disps` of the source, per pixel (row r, column c) of a
disparity (inverse-depth) map: `((x - cx)/fx, (y - cy)/fy, 1, disp)`
with x the column and y the row coordinate. -/
def iproj_disps (r c : ℕ) (disp : ℚ) (K : K4) : V4 :=
  ⟨((c : ℚ) - K.cx) / K.fx, ((r : ℚ) - K.cy) / K.fy, 1, disp⟩

/-- The relative pose of an edge inside `transform`:
`Gij = poses[:, jj] * poses[:, ii].inv()`, with the rotational component
zeroed afterwards when `tonly` is set. -/
def Gij (tonly : Bool) (poses : ℕ → SE3) (ii jj : ℕ → ℕ) (e : ℕ) : SE3 :=
  let g := se3Mul (poses (jj e)) (se3Inv (poses (ii e)))
  if tonly then se3TOnly g else g

/-- The transformed point `X1 = Gij * X0` of `transform`, at patch pixel
(r, c) of edge e; `X0 = iproj(patches[:, kk], intrinsics[:, ii])`. -/
def transformX1 (tonly : Bool) (poses : ℕ → SE3) (patches : ℕ → ℕ → ℕ → PatchPt)
    (intrinsics : ℕ → K4) (ii jj kk : ℕ → ℕ) (e r c : ℕ) : V4 :=
  se3Act (Gij tonly poses ii jj e) (iproj (patches (kk e) r c) (intrinsics (ii e)))

/-- `transform` of the source (coordinate output): `x1 = proj(X1, intrinsics[:, jj])`. -/
def transform (tonly : Bool) (poses : ℕ → SE3) (patches : ℕ → ℕ → ℕ → PatchPt)
    (intrinsics : ℕ → K4) (ii jj kk : ℕ → ℕ) (e r c : ℕ) : Pix :=
  proj (transformX1 tonly poses patches intrinsics ii jj kk e r c) (intrinsics (jj e))

/-- The `valid=True` output of `transform`: `(X1[..., 2] > 0.2).float()`,
per patch pixel. -/
def transform_valid (tonly : Bool) (poses : ℕ → SE3) (patches : ℕ → ℕ → ℕ → PatchPt)
    (intrinsics : ℕ → K4) (ii jj kk : ℕ → ℕ) (e r c : ℕ) : ℚ :=
  if (1 : ℚ)/5 < (transformX1 tonly poses patches intrinsics ii jj kk e r c).z then 1 else 0

/-- The center point `X1[..., p//2, p//2, :]` the Jacobian path of
`transform` works from (p is the patch size). -/
def jacCenter (p : ℕ) (tonly : Bool) (poses : ℕ → SE3) (patches : ℕ → ℕ → ℕ → PatchPt)
    (intrinsics : ℕ → K4) (ii jj kk : ℕ → ℕ) (e : ℕ) : V4 :=
  transformX1 tonly poses patches intrinsics ii jj kk e (p / 2) (p / 2)

/-- The masked inverse depth of the Jacobian path:
`d = 0; d[Z.abs() > 0.2] = 1.0 / Z`. -/
def jacD (Z : ℚ) : ℚ := if (1 : ℚ)/5 < |Z| then 1 / Z else 0

/-- The 4×6 action Jacobian `Ja` of `transform` (rows: homogeneous point
components, columns: tangent (translation, rotation)). -/
def transform_Ja (p : ℕ) (tonly : Bool) (poses : ℕ → SE3) (patches : ℕ → ℕ → ℕ → PatchPt)
    (intrinsics : ℕ → K4) (ii jj kk : ℕ → ℕ) (e : ℕ) : Matrix (Fin 4) (Fin 6) ℚ :=
  let cen := jacCenter p tonly poses patches intrinsics ii jj kk e
  !![cen.w, 0, 0, 0, cen.z, -cen.y;
     0, cen.w, 0, -cen.z, 0, cen.x;
     0, 0, cen.w, cen.y, -cen.x, 0;
     0, 0, 0, 0, 0, 0]

/-- The 2×4 projection Jacobian `Jp` of `transform`, with the masked
inverse depth `jacD` and the intrinsics of the target frame jj. -/
def transform_Jp (p : ℕ) (tonly : Bool) (poses : ℕ → SE3) (patches : ℕ → ℕ → ℕ → PatchPt)
    (intrinsics : ℕ → K4) (ii jj kk : ℕ → ℕ) (e : ℕ) : Matrix (Fin 2) (Fin 4) ℚ :=
  let cen := jacCenter p tonly poses patches intrinsics ii jj kk e
  let Kj := intrinsics (jj e)
  let d := jacD cen.z
  !![Kj.fx * d, 0, -(Kj.fx * cen.x * d * d), 0;
     0, Kj.fy * d, -(Kj.fy * cen.y * d * d), 0]

/-- `Jj = torch.matmul(Jp, Ja)` of `transform`. -/
def transform_Jj (p : ℕ) (tonly : Bool) (poses : ℕ → SE3) (patches : ℕ → ℕ → ℕ → PatchPt)
    (intrinsics : ℕ → K4) (ii jj kk : ℕ → ℕ) (e : ℕ) : Matrix (Fin 2) (Fin 6) ℚ :=
  transform_Jp p tonly poses patches intrinsics ii jj kk e *
    transform_Ja p tonly poses patches intrinsics ii jj kk e

/-- `Ji = -Gij[:,:,None].adjT(Jj)` of `transform`. -/
def transform_Ji (p : ℕ) (tonly : Bool) (poses : ℕ → SE3) (patches : ℕ → ℕ → ℕ → PatchPt)
    (intrinsics : ℕ → K4) (ii jj kk : ℕ → ℕ) (e : ℕ) : Matrix (Fin 2) (Fin 6) ℚ :=
  -(se3AdjT (Gij tonly poses ii jj e) (transform_Jj p tonly poses patches intrinsics ii jj kk e))

/-- `Jz = torch.matmul(Jp, Gij.matrix()[..., :, 3:])` of `transform`. -/
def transform_Jz (p : ℕ) (tonly : Bool) (poses : ℕ → SE3) (patches : ℕ → ℕ → ℕ → PatchPt)
    (intrinsics : ℕ → K4) (ii jj kk : ℕ → ℕ) (e : ℕ) : Matrix (Fin 2) (Fin 1) ℚ :=
  transform_Jp p tonly poses patches intrinsics ii jj kk e *
    Matrix.of (fun i (_ : Fin 1) => se3Matrix (Gij tonly poses ii jj e) i 3)

/-- The validity mask of the `jacobian=True` path of `transform`:
`(Z > 0.2).float()` with Z the center point's Z, one value per edge. -/
def transform_jvalid (p : ℕ) (tonly : Bool) (poses : ℕ → SE3) (patches : ℕ → ℕ → ℕ → PatchPt)
    (intrinsics : ℕ → K4) (ii jj kk : ℕ → ℕ) (e : ℕ) : ℚ :=
  if (1 : ℚ)/5 < (jacCenter p tonly poses patches intrinsics ii jj kk e).z then 1 else 0

/-- Euclidean norm of the displacement between two pixel coordinates
(`(coords - coords0).norm(dim=-1)`). -/
noncomputable def dispNorm (a b : Pix) : ℝ :=
  Real.sqrt (((a.x - b.x : ℚ) : ℝ)^2 + ((a.y - b.y : ℚ) : ℝ)^2)

/-- `flow_mag` of the source: blends the norms of the full-motion and
translation-only reprojection displacements from the same-frame baseline
`coords0 = transform(poses, patches, intrinsics, ii, ii, kk)`. -/
noncomputable def flow_mag (beta : ℚ) (poses : ℕ → SE3) (patches : ℕ → ℕ → ℕ → PatchPt)
    (intrinsics : ℕ → K4) (ii jj kk : ℕ → ℕ) (e r c : ℕ) : ℝ :=
  let coords0 := transform false poses patches intrinsics ii ii kk e r c
  let coords1 := transform false poses patches intrinsics ii jj kk e r c
  let coords2 := transform true poses patches intrinsics ii jj kk e r c
  (beta : ℝ) * dispNorm coords1 coords0 + (1 - (beta : ℝ)) * dispNorm coords2 coords0

/-- The relative pose used by `projective_transform`, including the
in-place override of self-edges (ii == jj) by the fixed placeholder
`[-0.1, 0, 0, 0, 0, 0, 1]` (translation (-0.1, 0, 0), identity rotation). -/
def ptGij (poses : ℕ → SE3) (ii jj : ℕ → ℕ) (e : ℕ) : SE3 :=
  if ii e = jj e then ⟨⟨-(1/10), 0, 0⟩, qId⟩
  else se3Mul (poses (jj e)) (se3Inv (poses (ii e)))

/-- The transformed point `X1 = Gij * X0` of `projective_transform`, with
`X0 = iproj_disps(depths[:, ii], intrinsics[:, ii])` at map pixel (r, c). -/
def ptX1 (poses : ℕ → SE3) (disps : ℕ → ℕ → ℕ → ℚ) (intrinsics : ℕ → K4)
    (ii jj : ℕ → ℕ) (e r c : ℕ) : V4 :=
  se3Act (ptGij poses ii jj e) (iproj_disps r c (disps (ii e) r c) (intrinsics (ii e)))

/-- `projective_transform` of the source (coordinate output):
`x1 = proj(X1, intrinsics[:, jj])` — the dense path projects with `proj`. -/
def projective_transform (poses : ℕ → SE3) (disps : ℕ → ℕ → ℕ → ℚ) (intrinsics : ℕ → K4)
    (ii jj : ℕ → ℕ) (e r c : ℕ) : Pix :=
  proj (ptX1 poses disps intrinsics ii jj e r c) (intrinsics (jj e))

/-- The validity output of `projective_transform`:
`((X1[...,2] > MIN_DEPTH) & (X0[...,2] > MIN_DEPTH)).float()`. -/
def projective_transform_valid (poses : ℕ → SE3) (disps : ℕ → ℕ → ℕ → ℚ)
    (intrinsics : ℕ → K4) (ii jj : ℕ → ℕ) (e r c : ℕ) : ℚ :=
  if MIN_DEPTH < (ptX1 poses disps intrinsics ii jj e r c).z ∧
     MIN_DEPTH < (iproj_disps r c (disps (ii e) r c) (intrinsics (ii e))).z
  then 1 else 0

/-- `induced_flow` of the source: `coords1[..., :2] - coords0` with
`coords0` the identity pixel grid (x = column, y = row). -/
def induced_flow (poses : ℕ → SE3) (disps : ℕ → ℕ → ℕ → ℚ) (intrinsics : ℕ → K4)
    (ii jj : ℕ → ℕ) (e r c : ℕ) : Pix :=
  let c1 := projective_transform poses disps intrinsics ii jj e r c
  ⟨c1.x - (c : ℚ), c1.y - (r : ℚ)⟩

/-- C1: for every edge e, `transform` computes exactly the stated
pipeline: X0 is the inverse projection of patch kk[e] with the observing
frame's intrinsics (xn = (x-cx)/fx, yn = (y-cy)/fy, point (xn, yn, 1, d)),
Gij = pose[jj[e]] · pose[ii[e]]⁻¹ in that order, X1 = Gij · X0, and the
output pixel is X1 projected with the target frame's intrinsics. -/
theorem spec_C1_transform_pipeline (poses : ℕ → SE3) (patches : ℕ → ℕ → ℕ → PatchPt)
    (intrinsics : ℕ → K4) (ii jj kk : ℕ → ℕ) (e r c : ℕ) :
    transform false poses patches intrinsics ii jj kk e r c =
      proj (se3Act (se3Mul (poses (jj e)) (se3Inv (poses (ii e))))
        ⟨((patches (kk e) r c).px - (intrinsics (ii e)).cx) / (intrinsics (ii e)).fx,
         ((patches (kk e) r c).py - (intrinsics (ii e)).cy) / (intrinsics (ii e)).fy,
         1, (patches (kk e) r c).d⟩)
        (intrinsics (jj e)) := rfl

/-- C7: inverse projection followed by projection with the same
intrinsics and no pose transform returns the original pixel exactly (in
particular within tolerance 1e-4), for any depth d > 0.1 and fx, fy > 0. -/
theorem spec_C7_roundtrip (pt : PatchPt) (K : K4) (hd : (1 : ℚ)/10 < pt.d)
    (hfx : 0 < K.fx) (hfy : 0 < K.fy) :
    proj (iproj pt K) K = ⟨pt.px, pt.py⟩ ∧
    |(proj (iproj pt K) K).x - pt.px| ≤ 1/10000 ∧
    |(proj (iproj pt K) K).y - pt.py| ≤ 1/10000 := by
  have hz : projD (1 : ℚ) = 1 := by norm_num [projD]
  have hmain : proj (iproj pt K) K = ⟨pt.px, pt.py⟩ := by
    unfold proj iproj
    simp only [hz, one_mul]
    have h1 : K.fx * ((pt.px - K.cx) / K.fx) + K.cx = pt.px := by
      field_simp
    have h2 : K.fy * ((pt.py - K.cy) / K.fy) + K.cy = pt.py := by
      field_simp
    simp [h1, h2]
  refine ⟨hmain, ?_, ?_⟩ <;> rw [hmain] <;> norm_num

/-- Witness for C7 at pixel (11, 13), depth 1, intrinsics (2, 3, 5, 7). -/
theorem spec_C7_roundtrip_witness :
    ((1 : ℚ)/10 < (1 : ℚ)) ∧ ((0 : ℚ) < 2) ∧ ((0 : ℚ) < 3) ∧
    proj (iproj ⟨11, 13, 1⟩ ⟨2, 3, 5, 7⟩) ⟨2, 3, 5, 7⟩ = ⟨11, 13⟩ :=
  ⟨by norm_num, by norm_num, by norm_num,
    (spec_C7_roundtrip ⟨11, 13, 1⟩ ⟨2, 3, 5, 7⟩ (by norm_num) (by norm_num) (by norm_num)).1⟩

/-- An if-then-else 0/1 flag is 1 iff the condition holds, 0 iff not. -/
theorem ite_flag_eq (P : Prop) [Decidable P] :
    ((if P then (1 : ℚ) else 0) = 1 ↔ P) ∧ ((if P then (1 : ℚ) else 0) = 0 ↔ ¬P) := by
  split_ifs with h <;> simp [h]

/-- The clamped inverse depth of `proj` is positive and at most 10. -/
theorem projD_bounds (Z : ℚ) : 0 < projD Z ∧ projD Z ≤ 10 := by
  have hmax : (1 : ℚ)/10 ≤ max Z (1/10) := le_max_right _ _
  have hpos : (0 : ℚ) < max Z (1/10) := lt_of_lt_of_le (by norm_num) hmax
  constructor
  · exact div_pos one_pos hpos
  · have := one_div_le_one_div_of_le (by norm_num : (0 : ℚ) < 1/10) hmax
    simpa [projD] using this.trans_eq (by norm_num)

/-- C2: in the Jacobian path of `transform`, the source-frame pose
Jacobian Ji is the negated adjoint-transpose transport of the
target-frame Jacobian Jj through the relative transform Gij (row-wise
`Adj(Gij)ᵀ`, i.e. right-multiplication by `Adj(Gij)`), where
Jj = Jp · Ja. -/
theorem spec_C2_adjoint_transport (p : ℕ) (tonly : Bool) (poses : ℕ → SE3)
    (patches : ℕ → ℕ → ℕ → PatchPt) (intrinsics : ℕ → K4) (ii jj kk : ℕ → ℕ) (e : ℕ) :
    transform_Ji p tonly poses patches intrinsics ii jj kk e =
      -(se3AdjT (Gij tonly poses ii jj e)
          (transform_Jj p tonly poses patches intrinsics ii jj kk e)) ∧
    se3AdjT (Gij tonly poses ii jj e)
        (transform_Jj p tonly poses patches intrinsics ii jj kk e) =
      transform_Jj p tonly poses patches intrinsics ii jj kk e *
        se3Adj (Gij tonly poses ii jj e) ∧
    transform_Jj p tonly poses patches intrinsics ii jj kk e =
      transform_Jp p tonly poses patches intrinsics ii jj kk e *
        transform_Ja p tonly poses patches intrinsics ii jj kk e :=
  ⟨rfl, rfl, rfl⟩

/-- C3: both validity outputs of `transform` are 1 exactly when the
transformed Z exceeds 0.2 and 0 when Z ≤ 0.2 (`valid=True` gates every
patch pixel, `jacobian=True` gates the center point); a degenerate point
raises no exception: its pixel is still given by the total clamped
formula, whose inverse depth lies in (0, 10]. -/
theorem spec_C3_validity_gate (tonly : Bool) (poses : ℕ → SE3)
    (patches : ℕ → ℕ → ℕ → PatchPt) (intrinsics : ℕ → K4) (ii jj kk : ℕ → ℕ)
    (p e r c : ℕ) :
    (transform_valid tonly poses patches intrinsics ii jj kk e r c = 1 ↔
       (1 : ℚ)/5 < (transformX1 tonly poses patches intrinsics ii jj kk e r c).z) ∧
    (transform_valid tonly poses patches intrinsics ii jj kk e r c = 0 ↔
       (transformX1 tonly poses patches intrinsics ii jj kk e r c).z ≤ 1/5) ∧
    (transform_jvalid p tonly poses patches intrinsics ii jj kk e = 1 ↔
       (1 : ℚ)/5 < (jacCenter p tonly poses patches intrinsics ii jj kk e).z) ∧
    (transform_jvalid p tonly poses patches intrinsics ii jj kk e = 0 ↔
       (jacCenter p tonly poses patches intrinsics ii jj kk e).z ≤ 1/5) ∧
    (0 < projD (transformX1 tonly poses patches intrinsics ii jj kk e r c).z ∧
       projD (transformX1 tonly poses patches intrinsics ii jj kk e r c).z ≤ 10) ∧
    transform tonly poses patches intrinsics ii jj kk e r c =
      ⟨(intrinsics (jj e)).fx *
          (projD (transformX1 tonly poses patches intrinsics ii jj kk e r c).z *
            (transformX1 tonly poses patches intrinsics ii jj kk e r c).x) +
          (intrinsics (jj e)).cx,
        (intrinsics (jj e)).fy *
          (projD (transformX1 tonly poses patches intrinsics ii jj kk e r c).z *
            (transformX1 tonly poses patches intrinsics ii jj kk e r c).y) +
          (intrinsics (jj e)).cy⟩ := by
  refine ⟨?_, ?_, ?_, ?_, projD_bounds _, rfl⟩
  · exact (ite_flag_eq _).1
  · exact (ite_flag_eq _).2.trans not_lt
  · exact (ite_flag_eq _).1
  · exact (ite_flag_eq _).2.trans not_lt

/-- C5: the depth Jacobian Jz of `transform` equals Jp applied to the
image of the depth basis direction (0, 0, 0, 1) under the 4×4 matrix
representation of Gij. -/
theorem spec_C5_depth_jacobian (p : ℕ) (tonly : Bool) (poses : ℕ → SE3)
    (patches : ℕ → ℕ → ℕ → PatchPt) (intrinsics : ℕ → K4) (ii jj kk : ℕ → ℕ) (e : ℕ) :
    ∀ i : Fin 2, transform_Jz p tonly poses patches intrinsics ii jj kk e i 0 =
      Matrix.mulVec (transform_Jp p tonly poses patches intrinsics ii jj kk e)
        (Matrix.mulVec (se3Matrix (Gij tonly poses ii jj e)) ![0, 0, 0, 1]) i := by
  intro i
  simp [transform_Jz, Matrix.mul_apply, Matrix.mulVec, Matrix.dotProduct,
    Fin.sum_univ_four]

/-- C10: the `jacobian=True` outputs of `transform` — the validity mask
and the triple (Ji, Jj, Jz) — are computed solely from the center pixel
(p//2, p//2) of the patch grid: two patch buffers that agree there give
identical mask and Jacobians. -/
theorem spec_C10_center_dependence (p : ℕ) (tonly : Bool) (poses : ℕ → SE3)
    (patches1 patches2 : ℕ → ℕ → ℕ → PatchPt) (intrinsics : ℕ → K4)
    (ii jj kk : ℕ → ℕ) (e : ℕ)
    (h : patches1 (kk e) (p / 2) (p / 2) = patches2 (kk e) (p / 2) (p / 2)) :
    transform_jvalid p tonly poses patches1 intrinsics ii jj kk e =
      transform_jvalid p tonly poses patches2 intrinsics ii jj kk e ∧
    transform_Ji p tonly poses patches1 intrinsics ii jj kk e =
      transform_Ji p tonly poses patches2 intrinsics ii jj kk e ∧
    transform_Jj p tonly poses patches1 intrinsics ii jj kk e =
      transform_Jj p tonly poses patches2 intrinsics ii jj kk e ∧
    transform_Jz p tonly poses patches1 intrinsics ii jj kk e =
      transform_Jz p tonly poses patches2 intrinsics ii jj kk e := by
  have hc : jacCenter p tonly poses patches1 intrinsics ii jj kk e =
      jacCenter p tonly poses patches2 intrinsics ii jj kk e := by
    unfold jacCenter transformX1
    rw [h]
  refine ⟨?_, ?_, ?_, ?_⟩ <;>
    simp only [transform_jvalid, transform_Ji, transform_Jj, transform_Jp,
      transform_Ja, transform_Jz, hc]

/-- Witness fixture: identity pose buffer. -/
def wPoses : ℕ → SE3 := fun _ => se3Id

/-- Witness fixture: unit intrinsics for every frame. -/
def wK : ℕ → K4 := fun _ => ⟨1, 1, 0, 0⟩

/-- Witness fixture: the constant index function 0. -/
def wI0 : ℕ → ℕ := fun _ => 0

/-- Witness fixture: the constant index function 1. -/
def wI1 : ℕ → ℕ := fun _ => 1

/-- Witness fixture for C10: a patch buffer whose pixel (r, c) has
channels (r, c, 1). -/
def w10_patches1 : ℕ → ℕ → ℕ → PatchPt := fun _ r c => ⟨(r : ℚ), (c : ℚ), 1⟩

/-- Witness fixture for C10: agrees with `w10_patches1` only at the
center pixel (1, 1) of a 3×3 patch. -/
def w10_patches2 : ℕ → ℕ → ℕ → PatchPt := fun _ r c =>
  if r = 1 ∧ c = 1 then ⟨1, 1, 1⟩ else ⟨3, 4, 2⟩

/-- Witness for C10: the two buffers agree at the center pixel, so the
Jacobian-path outputs coincide even though the buffers differ elsewhere. -/
theorem spec_C10_center_dependence_witness :
    w10_patches1 0 1 1 = w10_patches2 0 1 1 ∧
    transform_jvalid 3 false wPoses w10_patches1 wK wI0 wI1 wI0 0 =
      transform_jvalid 3 false wPoses w10_patches2 wK wI0 wI1 wI0 0 ∧
    transform_Ji 3 false wPoses w10_patches1 wK wI0 wI1 wI0 0 =
      transform_Ji 3 false wPoses w10_patches2 wK wI0 wI1 wI0 0 := by
  have h : w10_patches1 (wI0 0) (3 / 2) (3 / 2) = w10_patches2 (wI0 0) (3 / 2) (3 / 2) := by
    simp [w10_patches1, w10_patches2, wI0]
  have hmain := spec_C10_center_dependence 3 false wPoses w10_patches1 w10_patches2
    wK wI0 wI1 wI0 0 h
  exact ⟨h, hmain.1, hmain.2.1⟩

/-- C8: `flow_mag` returns beta times the norm of the full-motion
reprojection displacement plus (1 - beta) times the norm of the
translation-only displacement, both measured from the same-frame
baseline `transform(poses, patches, intrinsics, ii, ii, kk)`; the
translation-only variant zeroes the rotational component of Gij; with
beta = 1 it equals the full-motion magnitude exactly, with beta = 0 the
translation-only magnitude exactly. -/
theorem spec_C8_flow_blend (beta : ℚ) (poses : ℕ → SE3) (patches : ℕ → ℕ → ℕ → PatchPt)
    (intrinsics : ℕ → K4) (ii jj kk : ℕ → ℕ) (e r c : ℕ) :
    flow_mag beta poses patches intrinsics ii jj kk e r c =
      (beta : ℝ) * dispNorm (transform false poses patches intrinsics ii jj kk e r c)
          (transform false poses patches intrinsics ii ii kk e r c) +
        (1 - (beta : ℝ)) *
          dispNorm (transform true poses patches intrinsics ii jj kk e r c)
            (transform false poses patches intrinsics ii ii kk e r c) ∧
    Gij true poses ii jj e = ⟨(se3Mul (poses (jj e)) (se3Inv (poses (ii e)))).t, qId⟩ ∧
    flow_mag 1 poses patches intrinsics ii jj kk e r c =
      dispNorm (transform false poses patches intrinsics ii jj kk e r c)
        (transform false poses patches intrinsics ii ii kk e r c) ∧
    flow_mag 0 poses patches intrinsics ii jj kk e r c =
      dispNorm (transform true poses patches intrinsics ii jj kk e r c)
        (transform false poses patches intrinsics ii ii kk e r c) := by
  refine ⟨rfl, rfl, ?_, ?_⟩ <;> simp [flow_mag]

/-- Witness fixture for C9: a constant disparity (inverse depth) map of
value 10, i.e. source depth 0.1. -/
def c9Disps : ℕ → ℕ → ℕ → ℚ := fun _ _ _ => 10

/-- Counterexample for C9: with identity poses on a non-self edge and
disparity 10 (source depth 1/10 ≤ MIN_DEPTH), the dense-path validity is
1, although the claim demands 0 whenever the source depth is at or below
MIN_DEPTH: the coded source-side gate tests the constant homogeneous
coordinate, not the source depth. -/
theorem spec_C9_counterexample :
    projective_transform_valid wPoses c9Disps wK wI0 wI1 0 0 0 = 1 ∧
    1 / c9Disps (wI0 0) 0 0 ≤ MIN_DEPTH ∧
    ¬ projective_transform_valid wPoses c9Disps wK wI0 wI1 0 0 0 = 0 := by
  have h : projective_transform_valid wPoses c9Disps wK wI0 wI1 0 0 0 = 1 := by
    norm_num [projective_transform_valid, ptX1, ptGij, iproj_disps, se3Act, se3Mul,
      se3Inv, qrot, qmul, qconj, cross, v3add, v3smul, v3neg, qId, se3Id,
      wPoses, c9Disps, wK, wI0, wI1, MIN_DEPTH]
  refine ⟨h, by norm_num [c9Disps, wI0, MIN_DEPTH], by rw [h]; norm_num⟩

/-- C9 (amended): in the dense path the validity is 0 iff the transformed
point's Z is at or below MIN_DEPTH; the source-side conjunct of the coded
gate compares the third homogeneous coordinate of X0, which is the
constant 1, so it never fires and the source (inverse) depth does not
influence validity. -/
theorem spec_C9_dense_validity (poses : ℕ → SE3) (disps : ℕ → ℕ → ℕ → ℚ)
    (intrinsics : ℕ → K4) (ii jj : ℕ → ℕ) (e r c : ℕ) :
    (projective_transform_valid poses disps intrinsics ii jj e r c = 0 ↔
      (ptX1 poses disps intrinsics ii jj e r c).z ≤ MIN_DEPTH) ∧
    (iproj_disps r c (disps (ii e) r c) (intrinsics (ii e))).z = 1 := by
  refine ⟨?_, rfl⟩
  unfold projective_transform_valid
  constructor
  · intro h0
    by_contra hgt
    push_neg at hgt
    rw [if_pos ⟨hgt, by norm_num [iproj_disps, MIN_DEPTH]⟩] at h0
    exact one_ne_zero h0
  · intro hle
    rw [if_neg]
    rintro ⟨ha, _⟩
    exact absurd ha (not_lt.mpr hle)

/-- Witness fixture for C4: the identity pose for frame 0 and, for frame
1, a translation by -24/25 along the optical axis. -/
def c4Poses : ℕ → SE3 := fun n => if n = 1 then ⟨⟨0, 0, -(24/25)⟩, qId⟩ else se3Id

/-- Witness fixture for C4: a constant disparity map of value 1. -/
def cDisps1 : ℕ → ℕ → ℕ → ℚ := fun _ _ _ => 1

/-- Counterexample for C4: the dense path (`projective_transform`) does
not substitute Z with 1 for Z < 0.1 — it clamps with `proj`. At map pixel
(0, 1) the transformed Z is 1/25 < 0.1; the dense path returns pixel
(10, 0) (d = 1/0.1 = 10), while the substitution policy the claim states
(implemented only in `proj_disps`) would return (1, 0). -/
theorem spec_C4_counterexample :
    (ptX1 c4Poses cDisps1 wK wI0 wI1 0 0 1).z < 1/10 ∧
    projective_transform c4Poses cDisps1 wK wI0 wI1 0 0 1 = ⟨10, 0⟩ ∧
    proj_disps (ptX1 c4Poses cDisps1 wK wI0 wI1 0 0 1) (wK 1) = ⟨1, 0⟩ ∧
    projective_transform c4Poses cDisps1 wK wI0 wI1 0 0 1 ≠
      proj_disps (ptX1 c4Poses cDisps1 wK wI0 wI1 0 0 1) (wK 1) := by
  have hX1 : ptX1 c4Poses cDisps1 wK wI0 wI1 0 0 1 = ⟨1, 0, 1/25, 1⟩ := by
    norm_num [ptX1, ptGij, iproj_disps, se3Act, se3Mul, se3Inv, qrot, qmul, qconj,
      cross, v3add, v3smul, v3neg, qId, se3Id, c4Poses, cDisps1, wK, wI0, wI1]
  have hpix : projective_transform c4Poses cDisps1 wK wI0 wI1 0 0 1 = ⟨10, 0⟩ := by
    rw [projective_transform, hX1]
    norm_num [proj, projD, wK, wI1]
  have hsub : proj_disps (ptX1 c4Poses cDisps1 wK wI0 wI1 0 0 1) (wK 1) = ⟨1, 0⟩ := by
    rw [hX1]
    norm_num [proj_disps, projDispsZ, MIN_DEPTH, wK]
  refine ⟨by rw [hX1]; norm_num, hpix, hsub, ?_⟩
  rw [hpix, hsub]
  intro h
  exact absurd (congrArg Pix.x h) (by norm_num)

/-- C4 (amended): in the dense path, a transformed point with Z < 0.1 has
its pixel computed through the same clamp as the patch path
(d = 1/0.1 = 10), so the pixel is finite, and the point is flagged
invalid through the validity mask; the substitute-with-1.0 policy exists
only in `proj_disps`, which `projective_transform` does not call. -/
theorem spec_C4_dense_clamp (poses : ℕ → SE3) (disps : ℕ → ℕ → ℕ → ℚ)
    (intrinsics : ℕ → K4) (ii jj : ℕ → ℕ) (e r c : ℕ)
    (h : (ptX1 poses disps intrinsics ii jj e r c).z < 1/10) :
    projective_transform poses disps intrinsics ii jj e r c =
      ⟨(intrinsics (jj e)).fx * (10 * (ptX1 poses disps intrinsics ii jj e r c).x) +
          (intrinsics (jj e)).cx,
        (intrinsics (jj e)).fy * (10 * (ptX1 poses disps intrinsics ii jj e r c).y) +
          (intrinsics (jj e)).cy⟩ ∧
    projective_transform_valid poses disps intrinsics ii jj e r c = 0 := by
  have hd : projD (ptX1 poses disps intrinsics ii jj e r c).z = 10 := by
    unfold projD
    rw [max_eq_right h.le]
    norm_num
  constructor
  · unfold projective_transform proj
    rw [hd]
  · unfold projective_transform_valid
    rw [if_neg]
    rintro ⟨ha, _⟩
    rw [MIN_DEPTH] at ha
    linarith


/-- Witness for the amended C4 at the concrete input of the
counterexample fixture: the transformed Z is 1/25 < 0.1, the dense-path
pixel is given by the clamp formula, and the validity mask is 0. -/
theorem spec_C4_dense_clamp_witness :
    (ptX1 c4Poses cDisps1 wK wI0 wI1 0 0 1).z < 1/10 ∧
    projective_transform c4Poses cDisps1 wK wI0 wI1 0 0 1 =
      ⟨(wK (wI1 0)).fx * (10 * (ptX1 c4Poses cDisps1 wK wI0 wI1 0 0 1).x) +
          (wK (wI1 0)).cx,
        (wK (wI1 0)).fy * (10 * (ptX1 c4Poses cDisps1 wK wI0 wI1 0 0 1).y) +
          (wK (wI1 0)).cy⟩ ∧
    projective_transform_valid c4Poses cDisps1 wK wI0 wI1 0 0 1 = 0 := by
  have hz : (ptX1 c4Poses cDisps1 wK wI0 wI1 0 0 1).z < 1/10 := by
    norm_num [ptX1, ptGij, iproj_disps, se3Act, se3Mul, se3Inv, qrot, qmul, qconj,
      cross, v3add, v3smul, v3neg, qId, se3Id, c4Poses, cDisps1, wK, wI0, wI1]
  have hmain := spec_C4_dense_clamp c4Poses cDisps1 wK wI0 wI1 0 0 1 hz
  exact ⟨hz, hmain.1, hmain.2⟩

/-- C6: the projection Jacobian Jp built by `transform` is the derivative
of the projected pixel with respect to the homogeneous point in the
d = 1/Z convention of forward projection (stated as `HasDerivAt` facts
for each coordinate; the ∂/∂Y, ∂/∂W entries of row x and ∂/∂X, ∂/∂W of
row y are zero), valid only where |Z| > 0.2; for |Z| ≤ 0.2 every entry
is defined as zero — a flat region, no exception — and for Z > 0.2 the
masked inverse depth agrees with the forward-projection d. -/
theorem spec_C6_projection_jacobian (p : ℕ) (tonly : Bool) (poses : ℕ → SE3)
    (patches : ℕ → ℕ → ℕ → PatchPt) (intrinsics : ℕ → K4) (ii jj kk : ℕ → ℕ) (e : ℕ)
    (cen : V4) (Kj : K4)
    (hcen : cen = jacCenter p tonly poses patches intrinsics ii jj kk e)
    (hK : Kj = intrinsics (jj e)) :
    (¬ (1 : ℚ)/5 < |cen.z| →
       transform_Jp p tonly poses patches intrinsics ii jj kk e = 0) ∧
    ((1 : ℚ)/5 < |cen.z| →
       (HasDerivAt (fun u : ℝ => (Kj.fx : ℝ) * (u / (cen.z : ℝ)) + (Kj.cx : ℝ))
          ((transform_Jp p tonly poses patches intrinsics ii jj kk e 0 0 : ℚ) : ℝ)
          ((cen.x : ℝ)) ∧
        HasDerivAt (fun z : ℝ => (Kj.fx : ℝ) * ((cen.x : ℝ) / z) + (Kj.cx : ℝ))
          ((transform_Jp p tonly poses patches intrinsics ii jj kk e 0 2 : ℚ) : ℝ)
          ((cen.z : ℝ)) ∧
        transform_Jp p tonly poses patches intrinsics ii jj kk e 0 1 = 0 ∧
        transform_Jp p tonly poses patches intrinsics ii jj kk e 0 3 = 0 ∧
        HasDerivAt (fun v : ℝ => (Kj.fy : ℝ) * (v / (cen.z : ℝ)) + (Kj.cy : ℝ))
          ((transform_Jp p tonly poses patches intrinsics ii jj kk e 1 1 : ℚ) : ℝ)
          ((cen.y : ℝ)) ∧
        HasDerivAt (fun z : ℝ => (Kj.fy : ℝ) * ((cen.y : ℝ) / z) + (Kj.cy : ℝ))
          ((transform_Jp p tonly poses patches intrinsics ii jj kk e 1 2 : ℚ) : ℝ)
          ((cen.z : ℝ)) ∧
        transform_Jp p tonly poses patches intrinsics ii jj kk e 1 0 = 0 ∧
        transform_Jp p tonly poses patches intrinsics ii jj kk e 1 3 = 0) ∧
       ((1 : ℚ)/5 < cen.z → jacD cen.z = projD cen.z)) := by
  subst hcen hK
  set cen := jacCenter p tonly poses patches intrinsics ii jj kk e with hc
  set Kj := intrinsics (jj e) with hk
  constructor
  · intro h
    have hd : jacD cen.z = 0 := if_neg h
    ext i j
    fin_cases i <;> fin_cases j <;> simp [transform_Jp, ← hc, ← hk, hd]
  · intro h
    have hzq : cen.z ≠ 0 := by
      intro h0
      rw [h0] at h
      norm_num at h
    have hzr : ((cen.z : ℚ) : ℝ) ≠ 0 := by exact_mod_cast hzq
    have hd : jacD cen.z = 1 / cen.z := if_pos h
    have e00 : transform_Jp p tonly poses patches intrinsics ii jj kk e 0 0 =
        Kj.fx * (1 / cen.z) := by simp [transform_Jp, ← hc, ← hk, hd]
    have e02 : transform_Jp p tonly poses patches intrinsics ii jj kk e 0 2 =
        -(Kj.fx * cen.x * (1 / cen.z) * (1 / cen.z)) := by
      simp [transform_Jp, ← hc, ← hk, hd]
    have e11 : transform_Jp p tonly poses patches intrinsics ii jj kk e 1 1 =
        Kj.fy * (1 / cen.z) := by simp [transform_Jp, ← hc, ← hk, hd]
    have e12 : transform_Jp p tonly poses patches intrinsics ii jj kk e 1 2 =
        -(Kj.fy * cen.y * (1 / cen.z) * (1 / cen.z)) := by
      simp [transform_Jp, ← hc, ← hk, hd]
    refine ⟨⟨?_, ?_, ?_, ?_, ?_, ?_, ?_, ?_⟩, ?_⟩
    · have base : HasDerivAt (fun u : ℝ => (Kj.fx : ℝ) * (u / (cen.z : ℝ)) + (Kj.cx : ℝ))
          ((Kj.fx : ℝ) * (1 / (cen.z : ℝ))) ((cen.x : ℝ)) :=
        (((hasDerivAt_id _).div_const _).const_mul _).add_const _
      convert base using 1
      rw [e00]
      push_cast
      ring
    · have hfun : (fun z : ℝ => (Kj.fx : ℝ) * ((cen.x : ℝ) / z) + (Kj.cx : ℝ)) =
          fun z : ℝ => ((Kj.fx : ℝ) * (cen.x : ℝ)) * z⁻¹ + (Kj.cx : ℝ) := by
        funext z
        rw [div_eq_mul_inv]
        ring
      rw [hfun]
      have base := (HasDerivAt.const_mul ((Kj.fx : ℝ) * (cen.x : ℝ))
        (hasDerivAt_inv hzr)).add_const (Kj.cx : ℝ)
      convert base using 1
      rw [e02]
      push_cast
      ring
    · simp [transform_Jp, ← hc, ← hk]
    · simp [transform_Jp, ← hc, ← hk]
    · have base : HasDerivAt (fun v : ℝ => (Kj.fy : ℝ) * (v / (cen.z : ℝ)) + (Kj.cy : ℝ))
          ((Kj.fy : ℝ) * (1 / (cen.z : ℝ))) ((cen.y : ℝ)) :=
        (((hasDerivAt_id _).div_const _).const_mul _).add_const _
      convert base using 1
      rw [e11]
      push_cast
      ring
    · have hfun : (fun z : ℝ => (Kj.fy : ℝ) * ((cen.y : ℝ) / z) + (Kj.cy : ℝ)) =
          fun z : ℝ => ((Kj.fy : ℝ) * (cen.y : ℝ)) * z⁻¹ + (Kj.cy : ℝ) := by
        funext z
        rw [div_eq_mul_inv]
        ring
      rw [hfun]
      have base := (HasDerivAt.const_mul ((Kj.fy : ℝ) * (cen.y : ℝ))
        (hasDerivAt_inv hzr)).add_const (Kj.cy : ℝ)
      convert base using 1
      rw [e12]
      push_cast
      ring
    · simp [transform_Jp, ← hc, ← hk]
    · simp [transform_Jp, ← hc, ← hk]
    · intro hzz
      rw [hd]
      unfold projD
      rw [max_eq_left (by linarith : (1 : ℚ)/10 ≤ cen.z)]

/-- Witness fixture for C6: frame 1 translated by -9/10 along the optical
axis, producing a center point with Z = 1/10 (inside the flat region). -/
def c6Poses : ℕ → SE3 := fun n => if n = 1 then ⟨⟨0, 0, -(9/10)⟩, qId⟩ else se3Id

/-- Witness fixture for C6: a constant patch buffer, anchor (1, 2), depth 1. -/
def c6Patches : ℕ → ℕ → ℕ → PatchPt := fun _ _ _ => ⟨1, 2, 1⟩

/-- Witness for C6 at two concrete inputs: with `c6Poses` the center Z is
1/10 (|Z| ≤ 0.2) and Jp is the zero matrix; with identity poses the
center Z is 1 (|Z| > 0.2) and the masked inverse depth agrees with the
forward-projection d. -/
theorem spec_C6_projection_jacobian_witness :
    (¬ (1 : ℚ)/5 < |(jacCenter 3 false c6Poses c6Patches wK wI0 wI1 wI0 0).z|) ∧
    transform_Jp 3 false c6Poses c6Patches wK wI0 wI1 wI0 0 = 0 ∧
    ((1 : ℚ)/5 < |(jacCenter 3 false wPoses c6Patches wK wI0 wI1 wI0 0).z|) ∧
    ((1 : ℚ)/5 < (jacCenter 3 false wPoses c6Patches wK wI0 wI1 wI0 0).z) ∧
    jacD (jacCenter 3 false wPoses c6Patches wK wI0 wI1 wI0 0).z =
      projD (jacCenter 3 false wPoses c6Patches wK wI0 wI1 wI0 0).z := by
  have hAz : (jacCenter 3 false c6Poses c6Patches wK wI0 wI1 wI0 0).z = 1/10 := by
    norm_num [jacCenter, transformX1, Gij, iproj, se3Act, se3Mul, se3Inv, se3TOnly,
      qrot, qmul, qconj, cross, v3add, v3smul, v3neg, qId, se3Id, c6Poses, c6Patches,
      wK, wI0, wI1]
  have hBz : (jacCenter 3 false wPoses c6Patches wK wI0 wI1 wI0 0).z = 1 := by
    norm_num [jacCenter, transformX1, Gij, iproj, se3Act, se3Mul, se3Inv, se3TOnly,
      qrot, qmul, qconj, cross, v3add, v3smul, v3neg, qId, se3Id, wPoses, c6Patches,
      wK, wI0, wI1]
  have hA : ¬ (1 : ℚ)/5 < |(jacCenter 3 false c6Poses c6Patches wK wI0 wI1 wI0 0).z| := by
    rw [hAz, abs_of_pos (by norm_num : (0 : ℚ) < 1/10)]
    norm_num
  refine ⟨hA, ?_, ?_, ?_, ?_⟩
  · exact (spec_C6_projection_jacobian 3 false c6Poses c6Patches wK wI0 wI1 wI0 0
      _ _ rfl rfl).1 hA
  · rw [hBz]
    norm_num
  · rw [hBz]
    norm_num
  · exact ((spec_C6_projection_jacobian 3 false wPoses c6Patches wK wI0 wI1 wI0 0
      _ _ rfl rfl).2 (by rw [hBz]; norm_num)).2 (by rw [hBz]; norm_num)

end DPVO
